import Mathlib

set_option autoImplicit false

/-!
Verification development for the ADK Go example corpus and its
orchestration specification. Example code under the repository is embedded
directly; the orchestration runtime it calls (workflow agents, session
state scoping, callback pipeline, instruction templating, long-running
tool protocol) is not part of the repository sources, so those parts are
modelled from the specification text, as marked on each definition.
-/

namespace AdkSpec

/-! ## Core state model.

Modelled from the spec: State is a flat mapping from string key to value
(§3); an Event carries a `stateDelta` list of key/value writes; applying a
delta writes each pair in order, so the last write to a key wins (§3
invariant). The value type is kept abstract.
-/

/-- A state snapshot: a flat map from string keys to optional values. -/
def StateMap (V : Type) := String → Option V

/-- The empty state. -/
def StateMap.empty (V : Type) : StateMap V := fun _ => none

/-- The value of the last write to key `k` in a delta, if any. -/
def lastWrite {V : Type} (delta : List (String × V)) (k : String) : Option V :=
  delta.foldl (fun acc kv => if kv.1 = k then some kv.2 else acc) none

/-- Modelled from the spec: applying a delta writes each key/value pair in
order on top of the current state (§3: "applying a delta is last-write-wins
per key, applied in Event order"). -/
def applyDelta {V : Type} (delta : List (String × V)) (st : StateMap V) : StateMap V :=
  delta.foldl (fun s kv => fun k => if k = kv.1 then some kv.2 else s k) st

/-- Whether the character list `s` starts with the character list `t`. -/
def charsStartWith : List Char → List Char → Bool
  | _, [] => true
  | [], _ :: _ => false
  | c :: cs, d :: ds => c = d && charsStartWith cs ds

/-- Whether `sub` occurs inside `s` as a contiguous run. -/
def charsContain : List Char → List Char → Bool
  | [], sub => sub.isEmpty
  | c :: cs, sub => charsStartWith (c :: cs) sub || charsContain cs sub

/-- Go `strings.Contains`, on the characters of the two strings. -/
def goStringContains (s sub : String) : Bool :=
  charsContain s.toList sub.toList

/-- ASCII lowering of one character. -/
def asciiLowerChar (c : Char) : Char :=
  if 65 ≤ c.toNat && c.toNat ≤ 90 then Char.ofNat (c.toNat + 32) else c

/-- Go `strings.ToLower`, for the ASCII inputs of the examples. -/
def goToLower (s : String) : String := String.mk (s.toList.map asciiLowerChar)

/-! ## Workflow agents.

Modelled from the spec (§4.3, §5): an agent's `Run` is a producer of a
finite ordered sequence of events, modelled as a function of the state the
run starts from; composite workflow agents drive their ordered child list,
commit each event's `stateDelta`, and stop early on escalation.
-/

namespace Workflow

/-- An execution event (spec §3), restricted to the fields the workflow
layer inspects: the author, its state delta, and the escalate action. -/
structure Event (V : Type) where
  author : String
  stateDelta : List (String × V) := []
  escalate : Bool := false
deriving Repr, DecidableEq

/-- An agent's run: the ordered event sequence it produces, as a function
of the state it starts from. -/
def AgentRun (V : Type) := StateMap V → List (Event V)

/-- Commit the deltas of a drained event sequence to the state, in event
order. -/
def commitEvents {V : Type} (evs : List (Event V)) (st : StateMap V) : StateMap V :=
  evs.foldl (fun s e => applyDelta e.stateDelta s) st

/-- Result of running a workflow's child list once: the per-child event
traces, the state each executed child started from, the resulting state,
and whether an escalation was raised. -/
structure ChildrenResult (V : Type) where
  childTraces : List (List (Event V))
  startStates : List (StateMap V)
  state : StateMap V
  escalated : Bool

/-- Modelled from the spec (§4.3): run the child list strictly in order,
fully draining each child's events and committing its deltas before the
next child starts; stop after the first child whose drained events contain
an escalation ("a child signaling escalate is the only way control leaves
the default container traversal early"). -/
def runChildren {V : Type} : List (AgentRun V) → StateMap V → ChildrenResult V
  | [], st => ⟨[], [], st, false⟩
  | c :: rest, st =>
    if (c st).any (·.escalate) then
      ⟨[c st], [st], commitEvents (c st) st, true⟩
    else
      ⟨c st :: (runChildren rest (commitEvents (c st) st)).childTraces,
       st :: (runChildren rest (commitEvents (c st) st)).startStates,
       (runChildren rest (commitEvents (c st) st)).state,
       (runChildren rest (commitEvents (c st) st)).escalated⟩

/-- The flat forwarded event stream of one sequential pass over the child
list: each child's events are forwarded as produced, in child order. -/
def sequentialStream {V : Type} : List (AgentRun V) → StateMap V → List (Event V)
  | [], _ => []
  | c :: rest, st =>
    if (c st).any (·.escalate) then c st
    else c st ++ sequentialStream rest (commitEvents (c st) st)

/-- How a loop run ended: by exhausting `maxIterations` (a normal
termination, not an error — spec §4.3), or early by escalation. -/
inductive LoopExit
  | completed
  | escalated
deriving Repr, DecidableEq

/-- Result of a loop run: per-iteration traces (each a list of per-child
traces), the final state, and how the loop ended. -/
structure LoopResult (V : Type) where
  iterationTraces : List (List (List (Event V)))
  state : StateMap V
  exit : LoopExit

/-- Modelled from the spec (§4.3 Loop): re-execute the child list up to
`maxIterations` times, terminating early the first time any event sets
`escalate = true`. The unset / indefinite variant is outside this model;
the claims under verification all fix `maxIterations`. -/
def runLoop {V : Type} : Nat → List (AgentRun V) → StateMap V → LoopResult V
  | 0, _, st => ⟨[], st, .completed⟩
  | Nat.succ n, cs, st =>
    if (runChildren cs st).escalated then
      ⟨[(runChildren cs st).childTraces], (runChildren cs st).state, .escalated⟩
    else
      ⟨(runChildren cs st).childTraces
         :: (runLoop n cs (runChildren cs st).state).iterationTraces,
       (runLoop n cs (runChildren cs st).state).state,
       (runLoop n cs (runChildren cs st).state).exit⟩

/-- Embedded from `src/examples/go/snippets/agents/multi-agent/main.go`
(`checkStatusAndEscalate`, the StopChecker custom agent): yields a single
event whose escalate flag is set exactly when state key "quality_status"
holds "pass". -/
def stopChecker : AgentRun String := fun st =>
  [{ author := "StopChecker", escalate := decide (st "quality_status" = some "pass") }]

/-- A writer child for concrete runs: emits one event committing the given
delta, mirroring an LLM agent with an `outputKey` (spec §4.2 step 5). -/
def writerAgent (name : String) (delta : List (String × String)) : AgentRun String :=
  fun _ => [{ author := name, stateDelta := delta }]

/-- A concrete RefinementLoop child list (loop example): a critic and a
refiner, neither of which ever escalates. -/
def refinementChildren : List (AgentRun String) :=
  [writerAgent "CriticAgent" [("criticism", "needs work")],
   writerAgent "RefinerAgent" [("current_document", "draft")]]

/-- A concrete CodeRefinementLoop-style child list (multi-agent example):
a checker that writes a passing status, then the StopChecker that
escalates on it. -/
def pollerChildren : List (AgentRun String) :=
  [writerAgent "QualityChecker" [("quality_status", "pass")], stopChecker]

/-- The MyPipeline child list (multi-agent example): a first step saving
its output under "data", then a step that reads it. -/
def pipelineChildren : List (AgentRun String) :=
  [writerAgent "Step1_Fetch" [("data", "fetched")], writerAgent "Step2_Process" []]

/-- Modelled from the spec (§4.3 Parallel, §5): children emit their event
streams concurrently and the orchestrator forwards events in arrival
order. Arrival order is an explicit schedule of child indices; each entry
delivers the next undelivered event of that child. Returns the forwarded
stream (tagged with the producing child) and the undelivered rests. -/
def mergeRun {V : Type} : List Nat → List (List (Event V)) →
    List (Nat × Event V) × List (List (Event V))
  | [], streams => ([], streams)
  | i :: sched, streams =>
    match streams[i]? with
    | some (e :: rest) =>
      ((i, e) :: (mergeRun sched (streams.set i rest)).1,
       (mergeRun sched (streams.set i rest)).2)
    | some [] => mergeRun sched streams
    | none => mergeRun sched streams

/-- The events of child `i` inside a forwarded parallel stream, in
forwarding order. -/
def projectChild {V : Type} (i : Nat) (forwarded : List (Nat × Event V)) : List (Event V) :=
  forwarded.filterMap (fun p => if p.1 = i then some p.2 else none)

end Workflow

/-! ## Session store and state scopes.

Modelled from the spec (§3, §4.1): `temp:` keys are ephemeral — visible
for the remainder of the current run, stripped from what is persisted,
purged at run end regardless of success or failure.
-/

namespace SessionState

/-- A key is ephemeral when it carries the `temp:` scope. -/
def isTempKey (k : String) : Bool := charsStartWith k.toList "temp:".toList

/-- A session's persisted state. -/
structure Session (V : Type) where
  persisted : StateMap V

/-- The in-flight view of a run: the durable state under construction
plus the ephemeral overlay of `temp:` keys written during this run. -/
structure RunState (V : Type) where
  durable : StateMap V
  ephemeral : StateMap V

/-- Modelled from the spec (§4.1 appendEvent): strip `temp:` keys from
what is persisted while still making them visible to the remainder of the
in-flight run; non-ephemeral keys merge into the durable state. -/
def appendEvent {V : Type} (rs : RunState V) (delta : List (String × V)) : RunState V :=
  { durable := applyDelta (delta.filter (fun kv => !isTempKey kv.1)) rs.durable
    ephemeral := applyDelta (delta.filter (fun kv => isTempKey kv.1)) rs.ephemeral }

/-- Reading a key during a run: the ephemeral overlay wins, else the
durable state. -/
def RunState.get {V : Type} (rs : RunState V) (k : String) : Option V :=
  match rs.ephemeral k with
  | some v => some v
  | none => rs.durable k

/-- Start of a run: the session's persisted state, an empty overlay. -/
def startRun {V : Type} (s : Session V) : RunState V :=
  ⟨s.persisted, StateMap.empty V⟩

/-- End of a run, on success or failure alike: only the durable part
persists; the ephemeral overlay is purged (spec §3 invariant). -/
def endRun {V : Type} (rs : RunState V) : Session V := ⟨rs.durable⟩

/-- Apply a whole run's committed event deltas, in event order. -/
def applyRun {V : Type} : List (List (String × V)) → RunState V → RunState V
  | [], rs => rs
  | d :: ds, rs => applyRun ds (appendEvent rs d)

end SessionState

/-! ## Before-model callback pipeline. -/

namespace Callbacks

/-- The slice of an LLM request that the embedded callbacks inspect: the
conversation contents, each a list of text parts. -/
structure LLMRequest where
  contents : List (List String)

/-- The slice of an LLM response the embedded callbacks produce: its text
parts. -/
structure LLMResponse where
  texts : List String
deriving Repr, DecidableEq

/-- Embedded from `src/unnamed/part_003` (`onBeforeModel`): logs and
returns nil, allowing the default LLM call to proceed. -/
def onBeforeModel (_req : LLMRequest) : Option LLMResponse := none

/-- The fixed replacement response of the guardrail (apostrophe of the Go
literal elided). -/
def blockedResponse : LLMResponse :=
  ⟨["I am sorry, but I cannot discuss financial topics."]⟩

/-- Embedded from `src/unnamed/part_003` (`onBeforeModelGuardrail`): if
any content part contains the forbidden topic "finance", return the
predefined replacement response, blocking the LLM call; otherwise return
nil so the call proceeds. -/
def onBeforeModelGuardrail (req : LLMRequest) : Option LLMResponse :=
  if req.contents.any (fun content => content.any (fun t => goStringContains t "finance")) then
    some blockedResponse
  else
    none

/-- Modelled from the spec (§4.2 step 2): run before-model callbacks in
registration order; the first returning a non-empty response
short-circuits the rest. -/
def runBeforeModel : List (LLMRequest → Option LLMResponse) → LLMRequest → Option LLMResponse
  | [], _ => none
  | cb :: rest, req =>
    match cb req with
    | some resp => some resp
    | none => runBeforeModel rest req

/-- Modelled from the spec (§4.2): one turn of the model stage: a
short-circuiting callback's response becomes the turn's result with zero
model-capability calls; otherwise the model is called once. Returns the
turn result and the number of model calls. -/
def runModelStage (cbs : List (LLMRequest → Option LLMResponse))
    (model : LLMRequest → LLMResponse) (req : LLMRequest) : LLMResponse × Nat :=
  match runBeforeModel cbs req with
  | some resp => (resp, 0)
  | none => (model req, 1)

/-- The forbidden request of the guardrail example. -/
def financeRequest : LLMRequest :=
  ⟨[["What is the best way to manage my finance portfolio?"]]⟩

/-- A stand-in model capability with a fixed reply. -/
def mundaneModel : LLMRequest → LLMResponse := fun _ => ⟨["model reply"]⟩

end Callbacks

/-! ## Transfer-to-agent. -/

namespace Transfer

/-- The actions a tool can set on its context (embedded fields of
`tool.Context.Actions`). -/
structure ToolActions where
  transferToAgent : String := ""
  escalate : Bool := false
deriving Repr, DecidableEq

/-- Embedded from the loop example
(`src/examples/go/snippets/agents/workflow-agents/loop/main.go`,
`ExitLoop`): the tool signals loop termination by setting escalate. -/
def ExitLoop (a : ToolActions) : ToolActions := { a with escalate := true }

structure CheckAndTransferResult where
  status : String
  message : String
deriving Repr, DecidableEq

/-- Embedded from `customer_support_agent.go` (`checkAndTransfer`): if the
lowered query contains "urgent", set `TransferToAgent` to "support_agent"
on the tool's actions and report a transferring status; otherwise report a
processed status (apostrophes of the Go format string elided). -/
def checkAndTransfer (query : String) : CheckAndTransferResult × ToolActions :=
  if goStringContains (goToLower query) "urgent" then
    ({ status := "transferring", message := "Transferring to the support agent..." },
     { transferToAgent := "support_agent" })
  else
    ({ status := "processed",
       message := "Processed query: " ++ query ++ ". No further action needed." },
     {})

/-- An event as the dispatch loop of `customer_support_agent.go` sees it:
its author, the transfer action, and its text. -/
structure Event where
  author : String
  transferToAgent : String := ""
  text : String := ""
deriving Repr, DecidableEq

/-- Modelled from the spec (§4.2 step 3, §4.5): the main agent's turn on a
query for which the model invokes the `check_and_transfer` tool: the tool
result is surfaced as an event carrying the actions the tool set. -/
def mainAgentTurn (query : String) : List Event :=
  let r := checkAndTransfer query
  [{ author := "main_agent", transferToAgent := r.2.transferToAgent, text := r.1.message }]

/-- Embedded from `customer_support_agent.go` `main`: while draining a
turn, the last non-empty `TransferToAgent` seen is remembered. -/
def lastTransfer (evs : List Event) : String :=
  evs.foldl (fun acc e => if e.transferToAgent ≠ "" then e.transferToAgent else acc) ""

/-- The agents of the customer-support example. -/
inductive DispatchTarget
  | mainAgent
  | supportAgent
deriving Repr, DecidableEq

/-- Embedded from `customer_support_agent.go` `main`: after a turn is
drained, if the remembered transfer target is "support_agent", the next
turn is dispatched to the support agent — against the same session — with
the follow-up user content; otherwise the dispatch loop ends. The session
is threaded through unchanged. -/
def dispatchAfterTurn {S : Type} (sess : S) (evs : List Event) :
    Option (DispatchTarget × S × String) :=
  if lastTransfer evs == "support_agent" then
    some (.supportAgent, sess, "The user has an urgent issue, please assist them.")
  else
    none

end Transfer

/-! ## Long-running tool protocol. -/

namespace LongRunning

/-- Protocol state of one long-running tool call, modelled from the spec
(§3 Tool, §5): idle until started; pending while function responses carry
`willContinue = true`; completed at the first `willContinue = false`. -/
inductive FlowState (V : Type)
  | idle
  | pending (callID : String)
  | completed (callID : String) (finalValue : V)
deriving Repr, DecidableEq

/-- The inputs that drive one long-running tool call across turns: the
initiating call, and resumption function responses carrying the captured
call ID, a `willContinue` flag, and a payload. -/
inductive FlowInput (V : Type)
  | startCall (callID : String)
  | functionResponse (callID : String) (willContinue : Bool) (value : V)
deriving Repr, DecidableEq

/-- One protocol step: the new state, the number of tool-function
executions this step performs, and the number of terminal resumptions it
consumes. Starting executes the tool once and leaves only a pending
placeholder; a matching `willContinue = true` response keeps the call open
without re-executing; a matching `willContinue = false` response completes
the flow with its payload; anything else is ignored. -/
def stepFlow {V : Type} : FlowState V → FlowInput V → FlowState V × Nat × Nat
  | .idle, .startCall callID => (.pending callID, 1, 0)
  | .pending callID, .functionResponse respID willContinue v =>
    if respID = callID then
      if willContinue then (.pending callID, 0, 0)
      else (.completed callID v, 0, 1)
    else (.pending callID, 0, 0)
  | s, _ => (s, 0, 0)

/-- Drive a flow through a list of inputs, accumulating the execution and
terminal-resumption counts. -/
def runFlow {V : Type} : List (FlowInput V) → FlowState V → FlowState V × Nat × Nat
  | [], s => (s, 0, 0)
  | inp :: rest, s =>
    let r := stepFlow s inp
    let next := runFlow rest r.1
    (next.1, r.2.1 + next.2.1, r.2.2 + next.2.2)

/-- How many tool executions a state has absorbed. -/
def rankExec {V : Type} : FlowState V → Nat
  | .idle => 0
  | .pending _ => 1
  | .completed _ _ => 1

/-- How many terminal resumptions a state has absorbed. -/
def rankDone {V : Type} : FlowState V → Nat
  | .completed _ _ => 1
  | _ => 0

end LongRunning

/-! ## Instruction templating. -/

namespace Templating

/-- Scanner mode of the template renderer: outside any placeholder, inside
a placeholder with the reversed key read so far, or just after a lone
closing brace. -/
inductive RenderMode
  | normal
  | keyAcc (acc : List Char)
  | sawClose
deriving Repr, DecidableEq

/-- Modelled from the spec (§4.2, §8): render an instruction template
against session state. A `\x7bkey\x7d` placeholder is replaced by the
state value of `key`; doubled braces are escapes — `\x7b\x7b` renders as a
literal `\x7b` and `\x7d\x7d` as a literal `\x7d`, with no state lookup. A
placeholder whose key is absent from state, or an unterminated
placeholder, is left as written. -/
def renderChars (st : StateMap String) : List Char → RenderMode → List Char
  | [], .normal => []
  | [], .keyAcc acc => '\x7b' :: acc.reverse
  | [], .sawClose => ['\x7d']
  | c :: rest, .normal =>
    if c = '\x7b' then renderChars st rest (.keyAcc [])
    else if c = '\x7d' then renderChars st rest .sawClose
    else c :: renderChars st rest .normal
  | c :: rest, .keyAcc acc =>
    if c = '\x7b' && acc.isEmpty then '\x7b' :: renderChars st rest .normal
    else if c = '\x7d' then
      (match st (String.mk acc.reverse) with
       | some v => v.toList
       | none => '\x7b' :: acc.reverse ++ ['\x7d']) ++ renderChars st rest .normal
    else renderChars st rest (.keyAcc (c :: acc))
  | c :: rest, .sawClose =>
    if c = '\x7d' then '\x7d' :: renderChars st rest .normal
    else if c = '\x7b' then '\x7d' :: renderChars st rest (.keyAcc [])
    else '\x7d' :: c :: renderChars st rest .normal

/-- Modelled from the spec: `instructionutil.InjectSessionState`, the
state-injection pass applied to agent instructions. -/
def injectSessionState (st : StateMap String) (template : String) : String :=
  String.mk (renderChars st template.toList .normal)

/-- The state of the claim's worked example: `name` bound to `Ada`. -/
def adaState : StateMap String :=
  fun k => if k = "name" then some "Ada" else none

end Templating

/-! ## Final-response classification.

Embedded from `src/unnamed/part_010` (duplicated in
`src/examples/go/snippets/tools/overview/weather_sentiment/weather_sentiment.go`):
the client-side predicate deciding whether an event is the agent's final
response. Go nil pointers become `Option`; the Go field `Partial` is named
`partialFlag` here because of a Lean keyword clash.
-/

namespace FinalResponse

structure FunctionCall where
  name : String
  id : String
deriving Repr, DecidableEq

structure FunctionResponse where
  name : String
  id : String
  willContinue : Option Bool
deriving Repr, DecidableEq

structure CodeExecutionResult where
  outcome : String
deriving Repr, DecidableEq

structure Part where
  text : String
  functionCall : Option FunctionCall := none
  functionResponse : Option FunctionResponse := none
  codeExecutionResult : Option CodeExecutionResult := none
deriving Repr, DecidableEq

structure Content where
  parts : List Part
deriving Repr, DecidableEq

structure LLMResponse where
  content : Option Content
  partialFlag : Bool := false
deriving Repr, DecidableEq

structure EventActions where
  skipSummarization : Bool := false
deriving Repr, DecidableEq

structure Event where
  author : String
  actions : EventActions := {}
  longRunningToolIDs : List String := []
  llmResponse : Option LLMResponse := none
deriving Repr, DecidableEq

/-- Go `hasFunctionCalls`: nil response or nil content has none; otherwise
scan the parts for a function-call part. -/
def hasFunctionCalls (resp : Option LLMResponse) : Bool :=
  match resp with
  | none => false
  | some r =>
    match r.content with
    | none => false
    | some c => c.parts.any (fun p => p.functionCall.isSome)

/-- Go `hasFunctionResponses`: nil response or nil content has none;
otherwise scan the parts for a function-response part. -/
def hasFunctionResponses (resp : Option LLMResponse) : Bool :=
  match resp with
  | none => false
  | some r =>
    match r.content with
    | none => false
    | some c => c.parts.any (fun p => p.functionResponse.isSome)

/-- Go `hasTrailingCodeExecutionResult`: nil response, nil content or empty
parts yield false; otherwise test the last part. -/
def hasTrailingCodeExecutionResult (resp : Option LLMResponse) : Bool :=
  match resp with
  | none => false
  | some r =>
    match r.content with
    | none => false
    | some c =>
      match c.parts.getLast? with
      | none => false
      | some lastPart => lastPart.codeExecutionResult.isSome

/-- Go `isFinalResponse` from `src/unnamed/part_010`. -/
def isFinalResponse (ev : Event) : Bool :=
  if ev.actions.skipSummarization || decide (0 < ev.longRunningToolIDs.length) then
    true
  else
    match ev.llmResponse with
    | none => true
    | some r =>
      !hasFunctionCalls (some r) && !hasFunctionResponses (some r)
        && !r.partialFlag && !hasTrailingCodeExecutionResult (some r)

/-- The claim's client-visible termination predicate, written from the
claim's own words: final iff skip-summarization is set, or the
long-running-tool set is non-empty, or the LLM response is absent, or the
response has no function-call part, no function-response part, is not
partial, and its last part is not a code-execution result. -/
def finalResponseClaim (ev : Event) : Prop :=
  ev.actions.skipSummarization = true
  ∨ ev.longRunningToolIDs ≠ []
  ∨ ev.llmResponse = none
  ∨ ∃ r, ev.llmResponse = some r
      ∧ (∀ c, r.content = some c → ∀ p ∈ c.parts, p.functionCall = none)
      ∧ (∀ c, r.content = some c → ∀ p ∈ c.parts, p.functionResponse = none)
      ∧ r.partialFlag = false
      ∧ (∀ c, r.content = some c → ∀ lastPart, c.parts.getLast? = some lastPart →
          lastPart.codeExecutionResult = none)

end FinalResponse

end AdkSpec

/-! # Theorems -/

namespace AdkSpec

theorem applyDelta_nil {V : Type} (st : StateMap V) : applyDelta [] st = st := rfl

theorem applyDelta_cons {V : Type} (kv : String × V) (delta : List (String × V))
    (st : StateMap V) :
    applyDelta (kv :: delta) st
      = applyDelta delta (fun k => if k = kv.1 then some kv.2 else st k) := rfl

/-- The write-tracking fold either ends at the delta's last write to `k`,
or returns its initial accumulator when the delta never writes `k`. -/
theorem foldl_write_eq {V : Type} (delta : List (String × V)) (k : String)
    (init : Option V) :
    delta.foldl (fun acc kv => if kv.1 = k then some kv.2 else acc) init
      = match lastWrite delta k with
        | some v => some v
        | none => init := by
  induction delta generalizing init with
  | nil => rfl
  | cons kv rest ih =>
    have hcons : lastWrite (kv :: rest) k
        = rest.foldl (fun acc kv' => if kv'.1 = k then some kv'.2 else acc)
            (if kv.1 = k then some kv.2 else none) := rfl
    rw [List.foldl_cons, ih, hcons, ih]
    cases lastWrite rest k with
    | some v => rfl
    | none =>
      by_cases hk : kv.1 = k
      · simp [hk]
      · simp [hk]

/-- Characterisation of delta application: a key written by the delta ends
at its last written value; an unwritten key keeps its prior value. -/
theorem applyDelta_eq_lastWrite {V : Type} (delta : List (String × V))
    (st : StateMap V) (k : String) :
    applyDelta delta st k = match lastWrite delta k with
      | some v => some v
      | none => st k := by
  induction delta generalizing st with
  | nil => rfl
  | cons kv rest ih =>
    rw [applyDelta_cons, ih]
    have hcons : lastWrite (kv :: rest) k
        = rest.foldl (fun acc kv' => if kv'.1 = k then some kv'.2 else acc)
            (if kv.1 = k then some kv.2 else none) := rfl
    rw [hcons, foldl_write_eq]
    cases lastWrite rest k with
    | some v => rfl
    | none =>
      by_cases hk : kv.1 = k
      · simp [hk]
      · have hk' : ¬ k = kv.1 := fun h => hk h.symm
        simp [hk, hk']

theorem applyDelta_append {V : Type} (d1 d2 : List (String × V)) (st : StateMap V) :
    applyDelta (d1 ++ d2) st = applyDelta d2 (applyDelta d1 st) :=
  List.foldl_append ..

namespace Workflow

theorem commitEvents_cons {V : Type} (e : Event V) (evs : List (Event V)) (st : StateMap V) :
    commitEvents (e :: evs) st = commitEvents evs (applyDelta e.stateDelta st) := rfl

/-- Draining a whole event sequence commits the concatenation of its
deltas, in event order. -/
theorem commitEvents_eq_applyDelta {V : Type} (evs : List (Event V)) (st : StateMap V) :
    commitEvents evs st = applyDelta (evs.flatMap (·.stateDelta)) st := by
  induction evs generalizing st with
  | nil => rfl
  | cons e rest ih => rw [commitEvents_cons, ih, List.flatMap_cons, applyDelta_append]

theorem runChildren_nil {V : Type} (st : StateMap V) :
    runChildren ([] : List (AgentRun V)) st = ⟨[], [], st, false⟩ := rfl

theorem runChildren_cons_esc {V : Type} (c : AgentRun V) (rest : List (AgentRun V))
    (st : StateMap V) (h : (c st).any (·.escalate) = true) :
    runChildren (c :: rest) st = ⟨[c st], [st], commitEvents (c st) st, true⟩ := by
  simp [runChildren, h]

theorem runChildren_cons_noesc {V : Type} (c : AgentRun V) (rest : List (AgentRun V))
    (st : StateMap V) (h : (c st).any (·.escalate) = false) :
    runChildren (c :: rest) st
      = ⟨c st :: (runChildren rest (commitEvents (c st) st)).childTraces,
         st :: (runChildren rest (commitEvents (c st) st)).startStates,
         (runChildren rest (commitEvents (c st) st)).state,
         (runChildren rest (commitEvents (c st) st)).escalated⟩ := by
  simp [runChildren, h]

/-- A children pass that flags escalation contains an escalating event. -/
theorem runChildren_escalated_mem {V : Type} (cs : List (AgentRun V)) (st : StateMap V)
    (h : (runChildren cs st).escalated = true) :
    ∃ ct ∈ (runChildren cs st).childTraces, ∃ e ∈ ct, e.escalate = true := by
  induction cs generalizing st with
  | nil => rw [runChildren_nil] at h; simp at h
  | cons c rest ih =>
    cases hc : (c st).any (·.escalate) with
    | true =>
      obtain ⟨e, he, hee⟩ := List.any_eq_true.mp hc
      rw [runChildren_cons_esc _ _ _ hc]
      exact ⟨c st, by simp, e, he, hee⟩
    | false =>
      rw [runChildren_cons_noesc _ _ _ hc] at h ⊢
      obtain ⟨ct, hmem, hex⟩ := ih (commitEvents (c st) st) h
      exact ⟨ct, List.mem_cons_of_mem _ hmem, hex⟩

/-- A children pass that raises no escalation runs every child. -/
theorem runChildren_not_escalated_length {V : Type} (cs : List (AgentRun V)) (st : StateMap V)
    (h : (runChildren cs st).escalated = false) :
    (runChildren cs st).childTraces.length = cs.length := by
  induction cs generalizing st with
  | nil => rfl
  | cons c rest ih =>
    cases hc : (c st).any (·.escalate) with
    | true => rw [runChildren_cons_esc _ _ _ hc] at h; simp at h
    | false =>
      rw [runChildren_cons_noesc _ _ _ hc] at h ⊢
      simpa using ih (commitEvents (c st) st) h

theorem runLoop_zero {V : Type} (cs : List (AgentRun V)) (st : StateMap V) :
    runLoop 0 cs st = ⟨[], st, .completed⟩ := rfl

theorem runLoop_succ_esc {V : Type} (n : Nat) (cs : List (AgentRun V)) (st : StateMap V)
    (h : (runChildren cs st).escalated = true) :
    runLoop (n + 1) cs st
      = ⟨[(runChildren cs st).childTraces], (runChildren cs st).state, .escalated⟩ := by
  simp [runLoop, h]

theorem runLoop_succ_noesc {V : Type} (n : Nat) (cs : List (AgentRun V)) (st : StateMap V)
    (h : (runChildren cs st).escalated = false) :
    runLoop (n + 1) cs st
      = ⟨(runChildren cs st).childTraces
           :: (runLoop n cs (runChildren cs st).state).iterationTraces,
         (runLoop n cs (runChildren cs st).state).state,
         (runLoop n cs (runChildren cs st).state).exit⟩ := by
  simp [runLoop, h]

/-- C1: a loop with `maxIterations = n` none of whose produced events
raises an escalation executes its child list exactly `n` times — and in
each of the `n` iterations every child runs — and then terminates
normally (exit `completed`, not an error). -/
theorem loop_maxIterations_completes {V : Type} (n : Nat) (cs : List (AgentRun V))
    (st : StateMap V)
    (h : ∀ it ∈ (runLoop n cs st).iterationTraces, ∀ ct ∈ it, ∀ e ∈ ct, e.escalate = false) :
    (runLoop n cs st).iterationTraces.length = n
    ∧ (∀ it ∈ (runLoop n cs st).iterationTraces, it.length = cs.length)
    ∧ (runLoop n cs st).exit = .completed := by
  induction n generalizing st with
  | zero => exact ⟨rfl, by rw [runLoop_zero]; simp, rfl⟩
  | succ n ih =>
    cases hce : (runChildren cs st).escalated with
    | true =>
      exfalso
      obtain ⟨ct, hmem, e, he, hee⟩ := runChildren_escalated_mem cs st hce
      have hfalse := h (runChildren cs st).childTraces
        (by rw [runLoop_succ_esc _ _ _ hce]; simp) ct hmem e he
      rw [hfalse] at hee
      exact Bool.false_ne_true hee
    | false =>
      rw [runLoop_succ_noesc _ _ _ hce] at h ⊢
      have htail : ∀ it ∈ (runLoop n cs (runChildren cs st).state).iterationTraces,
          ∀ ct ∈ it, ∀ e ∈ ct, e.escalate = false :=
        fun it hit => h it (List.mem_cons_of_mem _ hit)
      obtain ⟨hlen, hall, hexit⟩ := ih (runChildren cs st).state htail
      refine ⟨by simp [hlen], ?_, hexit⟩
      intro it hit
      rcases List.mem_cons.mp hit with hhd | htl
      · rw [hhd]
        exact runChildren_not_escalated_length cs st hce
      · exact hall it htl

/-- Concrete instance of C1: the two-child refinement loop with
`maxIterations = 5` and no escalation runs all five iterations, each over
both children, and completes normally. -/
theorem loop_maxIterations_completes_witness :
    (runLoop 5 refinementChildren (StateMap.empty String)).iterationTraces.length = 5
    ∧ (∀ it ∈ (runLoop 5 refinementChildren (StateMap.empty String)).iterationTraces,
        it.length = refinementChildren.length)
    ∧ (runLoop 5 refinementChildren (StateMap.empty String)).exit = LoopExit.completed :=
  loop_maxIterations_completes 5 refinementChildren (StateMap.empty String) (by decide)

/-- In a children pass, an escalating child trace is the last child trace
of the pass, and the pass flags escalation. -/
theorem runChildren_escalating_last {V : Type} (cs : List (AgentRun V)) (st : StateMap V)
    (j : Nat) (ct : List (Event V))
    (hct : (runChildren cs st).childTraces[j]? = some ct)
    (hesc : ct.any (·.escalate) = true) :
    j = (runChildren cs st).childTraces.length - 1
    ∧ (runChildren cs st).escalated = true := by
  induction cs generalizing st j with
  | nil => rw [runChildren_nil] at hct; simp at hct
  | cons c rest ih =>
    cases hc : (c st).any (·.escalate) with
    | true =>
      rw [runChildren_cons_esc _ _ _ hc] at hct ⊢
      cases j with
      | zero => exact ⟨rfl, rfl⟩
      | succ j => simp at hct
    | false =>
      rw [runChildren_cons_noesc _ _ _ hc] at hct ⊢
      cases j with
      | zero =>
        simp at hct
        rw [hct] at hc
        rw [hesc] at hc
        exact absurd hc (by simp)
      | succ j =>
        rw [List.getElem?_cons_succ] at hct
        obtain ⟨hj, he⟩ := ih (commitEvents (c st) st) j hct
        have hlt : j < (runChildren rest (commitEvents (c st) st)).childTraces.length :=
          (List.getElem?_eq_some.mp hct).1
        refine ⟨?_, he⟩
        simp only [List.length_cons]
        omega

/-- C2: once an event with `escalate = true` is produced inside a loop
run, no further child of the enclosing workflow pass and no further loop
iteration executes: the escalating child trace is the last child trace of
the last iteration, and the loop exits by escalation. -/
theorem escalation_halts_loop {V : Type} (n : Nat) (cs : List (AgentRun V)) (st : StateMap V)
    (i j : Nat) (it : List (List (Event V))) (ct : List (Event V))
    (hit : (runLoop n cs st).iterationTraces[i]? = some it)
    (hct : it[j]? = some ct)
    (hesc : ct.any (·.escalate) = true) :
    i = (runLoop n cs st).iterationTraces.length - 1
    ∧ j = it.length - 1
    ∧ (runLoop n cs st).exit = .escalated := by
  induction n generalizing st i with
  | zero => rw [runLoop_zero] at hit; simp at hit
  | succ n ih =>
    cases hce : (runChildren cs st).escalated with
    | true =>
      rw [runLoop_succ_esc _ _ _ hce] at hit ⊢
      cases i with
      | zero =>
        simp at hit
        subst hit
        obtain ⟨hj, _⟩ := runChildren_escalating_last cs st j ct hct hesc
        exact ⟨by simp, hj, rfl⟩
      | succ i => simp at hit
    | false =>
      rw [runLoop_succ_noesc _ _ _ hce] at hit ⊢
      cases i with
      | zero =>
        simp at hit
        subst hit
        obtain ⟨_, he⟩ := runChildren_escalating_last cs st j ct hct hesc
        rw [hce] at he
        exact absurd he (by simp)
      | succ i =>
        rw [List.getElem?_cons_succ] at hit
        obtain ⟨hi, hj, hexit⟩ := ih (runChildren cs st).state i hit
        have hlt : i < (runLoop n cs (runChildren cs st).state).iterationTraces.length :=
          (List.getElem?_eq_some.mp hit).1
        refine ⟨?_, hj, hexit⟩
        simp only [List.length_cons]
        omega

/-- Concrete instance of C2: in the poller loop the StopChecker escalates
in the first iteration, as the second of two children, and the loop exits
by escalation with no further iterations. -/
theorem escalation_halts_loop_witness :
    0 = (runLoop 5 pollerChildren (StateMap.empty String)).iterationTraces.length - 1
    ∧ 1 = [[Event.mk "QualityChecker" [("quality_status", "pass")] false],
           [Event.mk "StopChecker" [] true]].length - 1
    ∧ (runLoop 5 pollerChildren (StateMap.empty String)).exit = LoopExit.escalated :=
  escalation_halts_loop 5 pollerChildren (StateMap.empty String) 0 1
    [[Event.mk "QualityChecker" [("quality_status", "pass")] false],
     [Event.mk "StopChecker" [] true]]
    [Event.mk "StopChecker" [] true]
    (by decide) (by decide) (by decide)

/-- The first executed child of a children pass starts from the input
state of the pass. -/
theorem runChildren_startStates_head {V : Type} (cs : List (AgentRun V)) (st : StateMap V)
    (x : StateMap V) (h : (runChildren cs st).startStates[0]? = some x) : x = st := by
  cases cs with
  | nil => rw [runChildren_nil] at h; simp at h
  | cons c rest =>
    cases hc : (c st).any (·.escalate) with
    | true =>
      rw [runChildren_cons_esc _ _ _ hc] at h
      simp at h
      exact h.symm
    | false =>
      rw [runChildren_cons_noesc _ _ _ hc] at h
      simp at h
      exact h.symm

/-- The forwarded stream of a sequential pass is exactly the per-child
traces concatenated in child order: each child is fully drained before the
next child produces any event. -/
theorem sequentialStream_eq_flatten {V : Type} (cs : List (AgentRun V)) (st : StateMap V) :
    sequentialStream cs st = (runChildren cs st).childTraces.flatten := by
  induction cs generalizing st with
  | nil => rw [runChildren_nil]; rfl
  | cons c rest ih =>
    cases hc : (c st).any (·.escalate) with
    | true =>
      rw [runChildren_cons_esc _ _ _ hc]
      simp [sequentialStream, hc]
    | false =>
      rw [runChildren_cons_noesc _ _ _ hc]
      simp [sequentialStream, hc, ih]

/-- A child starts from the state left by committing its predecessor's
events to the predecessor's start state. -/
theorem runChildren_startState_commit {V : Type} (cs : List (AgentRun V)) (st : StateMap V)
    (i : Nat) (ti : List (Event V)) (s0 s1 : StateMap V)
    (ht : (runChildren cs st).childTraces[i]? = some ti)
    (h0 : (runChildren cs st).startStates[i]? = some s0)
    (h1 : (runChildren cs st).startStates[i + 1]? = some s1) :
    s1 = commitEvents ti s0 := by
  induction cs generalizing st i with
  | nil => rw [runChildren_nil] at h0; simp at h0
  | cons c rest ih =>
    cases hc : (c st).any (·.escalate) with
    | true =>
      rw [runChildren_cons_esc _ _ _ hc] at h1
      simp at h1
    | false =>
      rw [runChildren_cons_noesc _ _ _ hc] at ht h0 h1
      cases i with
      | zero =>
        simp at ht h0
        rw [List.getElem?_cons_succ] at h1
        subst ht
        subst h0
        exact runChildren_startStates_head rest (commitEvents (c st) st) s1 h1
      | succ i =>
        rw [List.getElem?_cons_succ] at ht h0 h1
        exact ih (commitEvents (c st) st) i ht h0 h1

/-- C3: in a sequential composition, each child's event stream is fully
drained — forwarded as one contiguous block before the next child's — and
child `i + 1` starts from the state obtained by committing child `i`'s
deltas, so every state-delta key committed by child `i` (at its last
written value) is visible to child `i + 1` when it starts. -/
theorem sequential_visibility {V : Type} (cs : List (AgentRun V)) (st : StateMap V)
    (i : Nat) (ti : List (Event V)) (s0 s1 : StateMap V)
    (ht : (runChildren cs st).childTraces[i]? = some ti)
    (h0 : (runChildren cs st).startStates[i]? = some s0)
    (h1 : (runChildren cs st).startStates[i + 1]? = some s1) :
    sequentialStream cs st = (runChildren cs st).childTraces.flatten
    ∧ s1 = commitEvents ti s0
    ∧ ∀ k v, lastWrite (ti.flatMap (·.stateDelta)) k = some v → s1 k = some v := by
  have hcommit := runChildren_startState_commit cs st i ti s0 s1 ht h0 h1
  refine ⟨sequentialStream_eq_flatten cs st, hcommit, ?_⟩
  intro k v hw
  rw [hcommit, commitEvents_eq_applyDelta, applyDelta_eq_lastWrite, hw]

/-- Concrete instance of C3: in MyPipeline the "data" key written by the
first step is visible in the state the second step starts from, and the
stream is the per-child traces in order. -/
theorem sequential_visibility_witness :
    commitEvents [Event.mk "Step1_Fetch" [("data", "fetched")] false]
        (StateMap.empty String) "data" = some "fetched"
    ∧ sequentialStream pipelineChildren (StateMap.empty String)
        = (runChildren pipelineChildren (StateMap.empty String)).childTraces.flatten := by
  have h := sequential_visibility pipelineChildren (StateMap.empty String) 0
    [Event.mk "Step1_Fetch" [("data", "fetched")] false]
    (StateMap.empty String)
    (commitEvents [Event.mk "Step1_Fetch" [("data", "fetched")] false] (StateMap.empty String))
    rfl rfl rfl
  exact ⟨h.2.1 ▸ h.2.2 "data" "fetched" (by decide), h.1⟩

theorem projectChild_cons_self {V : Type} (i : Nat) (e : Event V)
    (l : List (Nat × Event V)) :
    projectChild i ((i, e) :: l) = e :: projectChild i l := by
  simp [projectChild]

theorem projectChild_cons_ne {V : Type} (i j : Nat) (e : Event V)
    (l : List (Nat × Event V)) (h : j ≠ i) :
    projectChild i ((j, e) :: l) = projectChild i l := by
  simp [projectChild, h]

theorem mergeRun_cons_some {V : Type} (j : Nat) (sched : List Nat)
    (streams : List (List (Event V))) (e : Event V) (rest : List (Event V))
    (h : streams[j]? = some (e :: rest)) :
    mergeRun (j :: sched) streams
      = ((j, e) :: (mergeRun sched (streams.set j rest)).1,
         (mergeRun sched (streams.set j rest)).2) := by
  simp [mergeRun, h]

theorem mergeRun_cons_empty {V : Type} (j : Nat) (sched : List Nat)
    (streams : List (List (Event V))) (h : streams[j]? = some []) :
    mergeRun (j :: sched) streams = mergeRun sched streams := by
  simp [mergeRun, h]

theorem mergeRun_cons_none {V : Type} (j : Nat) (sched : List Nat)
    (streams : List (List (Event V))) (h : streams[j]? = none) :
    mergeRun (j :: sched) streams = mergeRun sched streams := by
  simp [mergeRun, h]

/-- Forwarding never reorders a single child's events: the forwarded
events of child `i`, followed by its undelivered rest, are exactly its own
stream. -/
theorem mergeRun_preserves_order {V : Type} (sched : List Nat)
    (streams : List (List (Event V))) (i : Nat) :
    projectChild i (mergeRun sched streams).1 ++ ((mergeRun sched streams).2[i]?.getD [])
      = streams[i]?.getD [] := by
  induction sched generalizing streams with
  | nil => simp [mergeRun, projectChild]
  | cons j sched ih =>
    cases hj : streams[j]? with
    | none => rw [mergeRun_cons_none _ _ _ hj]; exact ih streams
    | some l =>
      cases l with
      | nil => rw [mergeRun_cons_empty _ _ _ hj]; exact ih streams
      | cons e rest =>
        rw [mergeRun_cons_some _ _ _ _ _ hj]
        by_cases hij : j = i
        · subst hij
          have hlt : j < streams.length := (List.getElem?_eq_some.mp hj).1
          have hset : (streams.set j rest)[j]? = some rest := by
            rw [List.getElem?_set]
            simp [hlt]
          have hih := ih (streams.set j rest)
          rw [hset] at hih
          rw [projectChild_cons_self, List.cons_append, hih, hj]
          rfl
        · have hset : (streams.set j rest)[i]? = streams[i]? := by
            rw [List.getElem?_set]
            simp [hij]
          have hih := ih (streams.set j rest)
          rw [hset] at hih
          rw [projectChild_cons_ne i j e _ hij, hih]

/-- C9: for a parallel composition, under any arrival schedule the
forwarded stream never reorders a single child's own events (its forwarded
events plus its undelivered rest are exactly its stream), and committing
the forwarded deltas in arrival order is last-write-wins per key over the
arrival order. -/
theorem parallel_no_reorder_lastWrite {V : Type} (sched : List Nat)
    (streams : List (List (Event V))) (i : Nat) (st : StateMap V) (k : String) :
    (projectChild i (mergeRun sched streams).1 ++ ((mergeRun sched streams).2[i]?.getD [])
        = streams[i]?.getD [])
    ∧ commitEvents ((mergeRun sched streams).1.map (·.2)) st k
        = (match lastWrite (((mergeRun sched streams).1.map (·.2)).flatMap (·.stateDelta)) k with
           | some v => some v
           | none => st k) := by
  refine ⟨mergeRun_preserves_order sched streams i, ?_⟩
  rw [commitEvents_eq_applyDelta]
  exact applyDelta_eq_lastWrite ..

end Workflow

namespace SessionState

theorem applyRun_cons {V : Type} (d : List (String × V)) (ds : List (List (String × V)))
    (rs : RunState V) : applyRun (d :: ds) rs = applyRun ds (appendEvent rs d) := rfl

/-- The write-tracking fold ignores pairs whose key is not `k`, so a
filter that keeps every pair with key `k` does not change it. -/
theorem foldl_write_filter {V : Type} (l : List (String × V)) (p : String × V → Bool)
    (k : String) (hp : ∀ kv : String × V, kv.1 = k → p kv = true) (init : Option V) :
    (l.filter p).foldl (fun acc kv => if kv.1 = k then some kv.2 else acc) init
      = l.foldl (fun acc kv => if kv.1 = k then some kv.2 else acc) init := by
  induction l generalizing init with
  | nil => rfl
  | cons kv rest ih =>
    by_cases hkv : p kv = true
    · rw [List.filter_cons_of_pos hkv, List.foldl_cons, List.foldl_cons]
      exact ih _
    · have hk : kv.1 ≠ k := fun h => hkv (hp kv h)
      rw [List.filter_cons_of_neg (by simpa using hkv), List.foldl_cons, if_neg hk]
      exact ih init

theorem lastWrite_filter_eq {V : Type} (l : List (String × V)) (p : String × V → Bool)
    (k : String) (hp : ∀ kv : String × V, kv.1 = k → p kv = true) :
    lastWrite (l.filter p) k = lastWrite l k :=
  foldl_write_filter l p k hp none

/-- A delta that never writes `k` leaves the write-tracking fold at its
initial accumulator. -/
theorem foldl_write_no_key {V : Type} (l : List (String × V)) (k : String)
    (h : ∀ kv ∈ l, kv.1 ≠ k) (init : Option V) :
    l.foldl (fun acc kv => if kv.1 = k then some kv.2 else acc) init = init := by
  induction l generalizing init with
  | nil => rfl
  | cons kv rest ih =>
    rw [List.foldl_cons, if_neg (h kv (by simp))]
    exact ih (fun kv' h' => h kv' (List.mem_cons_of_mem _ h')) init

theorem lastWrite_eq_none_of_no_key {V : Type} (l : List (String × V)) (k : String)
    (h : ∀ kv ∈ l, kv.1 ≠ k) : lastWrite l k = none :=
  foldl_write_no_key l k h none

/-- The durable state of a run is the non-ephemeral part of all committed
deltas applied in event order. -/
theorem applyRun_durable {V : Type} (ds : List (List (String × V))) (rs : RunState V) :
    (applyRun ds rs).durable
      = applyDelta ((ds.flatMap id).filter (fun kv => !isTempKey kv.1)) rs.durable := by
  induction ds generalizing rs with
  | nil => rfl
  | cons d ds ih =>
    rw [applyRun_cons, ih, List.flatMap_cons, List.filter_append, applyDelta_append]
    rfl

/-- The ephemeral overlay of a run is the `temp:` part of all committed
deltas applied in event order. -/
theorem applyRun_ephemeral {V : Type} (ds : List (List (String × V))) (rs : RunState V) :
    (applyRun ds rs).ephemeral
      = applyDelta ((ds.flatMap id).filter (fun kv => isTempKey kv.1)) rs.ephemeral := by
  induction ds generalizing rs with
  | nil => rfl
  | cons d ds ih =>
    rw [applyRun_cons, ih, List.flatMap_cons, List.filter_append, applyDelta_append]
    rfl

/-- C6: a `temp:` key written during a run is visible (at its last written
value) for the remainder of that run, is never merged into the durable
state committed by the run's events, and a state snapshot taken in a later
run of the session — after the run ends and its overlay is purged — sees
only what was persisted before the run, regardless of how the run ended. -/
theorem temp_keys_run_scoped {V : Type} (s : Session V) (deltas : List (List (String × V)))
    (k : String) (v : V) (htemp : isTempKey k = true) :
    (lastWrite (deltas.flatMap id) k = some v →
        RunState.get (applyRun deltas (startRun s)) k = some v)
    ∧ (applyRun deltas (startRun s)).durable k = s.persisted k
    ∧ RunState.get (startRun (endRun (applyRun deltas (startRun s)))) k = s.persisted k := by
  have hdur : (applyRun deltas (startRun s)).durable k = s.persisted k := by
    rw [applyRun_durable, applyDelta_eq_lastWrite]
    have hnone : lastWrite ((deltas.flatMap id).filter (fun kv => !isTempKey kv.1)) k = none := by
      apply lastWrite_eq_none_of_no_key
      intro kv hkv hk1
      have hmem := (List.mem_filter.mp hkv).2
      rw [hk1, htemp] at hmem
      simp at hmem
    rw [hnone]
    rfl
  refine ⟨?_, hdur, ?_⟩
  · intro hw
    have heph : (applyRun deltas (startRun s)).ephemeral k = some v := by
      rw [applyRun_ephemeral, applyDelta_eq_lastWrite]
      have hfil : lastWrite ((deltas.flatMap id).filter (fun kv => isTempKey kv.1)) k
          = lastWrite (deltas.flatMap id) k := by
        apply lastWrite_filter_eq
        intro kv hk1
        rw [hk1]
        exact htemp
      rw [hfil, hw]
    unfold RunState.get
    rw [heph]
  · show RunState.get ⟨(applyRun deltas (startRun s)).durable, StateMap.empty V⟩ k = _
    unfold RunState.get
    exact hdur

/-- Concrete instance of C6: the `temp:current_user_id` key written by the
`getUserProfile` tool is visible during its run, never persisted, and
invisible to a later run of the session. -/
theorem temp_keys_run_scoped_witness :
    RunState.get (applyRun [[("temp:current_user_id", "user-12345")]]
        (startRun (Session.mk (StateMap.empty String)))) "temp:current_user_id"
      = some "user-12345"
    ∧ (applyRun [[("temp:current_user_id", "user-12345")]]
        (startRun (Session.mk (StateMap.empty String)))).durable "temp:current_user_id"
      = (Session.mk (StateMap.empty String)).persisted "temp:current_user_id"
    ∧ RunState.get (startRun (endRun (applyRun [[("temp:current_user_id", "user-12345")]]
        (startRun (Session.mk (StateMap.empty String)))))) "temp:current_user_id"
      = (Session.mk (StateMap.empty String)).persisted "temp:current_user_id" := by
  have h := temp_keys_run_scoped (Session.mk (StateMap.empty String))
    [[("temp:current_user_id", "user-12345")]] "temp:current_user_id" "user-12345" (by decide)
  exact ⟨h.1 (by decide), h.2.1, h.2.2⟩

end SessionState

namespace Callbacks

/-- The pipeline returns the first non-empty callback response,
independently of the callbacks registered after it. -/
theorem runBeforeModel_first_some (cbs1 cbs2 : List (LLMRequest → Option LLMResponse))
    (cb : LLMRequest → Option LLMResponse) (req : LLMRequest) (resp : LLMResponse)
    (hfirst : ∀ c ∈ cbs1, c req = none) (hcb : cb req = some resp) :
    runBeforeModel (cbs1 ++ cb :: cbs2) req = some resp := by
  induction cbs1 with
  | nil => simp [runBeforeModel, hcb]
  | cons c rest ih =>
    have hc : c req = none := hfirst c (by simp)
    rw [List.cons_append]
    simp only [runBeforeModel, hc]
    exact ih (fun c' hc' => hfirst c' (List.mem_cons_of_mem _ hc'))

/-- C5: when a before-model callback returns a non-empty response, the
first such callback's response is the turn's result, the callbacks after
it are short-circuited, and the model capability is called zero times. -/
theorem beforeModel_shortCircuit (cbs1 cbs2 : List (LLMRequest → Option LLMResponse))
    (cb : LLMRequest → Option LLMResponse) (model : LLMRequest → LLMResponse)
    (req : LLMRequest) (resp : LLMResponse)
    (hfirst : ∀ c ∈ cbs1, c req = none) (hcb : cb req = some resp) :
    runModelStage (cbs1 ++ cb :: cbs2) model req = (resp, 0) := by
  unfold runModelStage
  rw [runBeforeModel_first_some cbs1 cbs2 cb req resp hfirst hcb]

/-- Concrete instance of C5: with the basic callback registered first and
the guardrail second, a finance request is answered by the guardrail
response with zero model calls. -/
theorem beforeModel_shortCircuit_witness :
    runModelStage [onBeforeModel, onBeforeModelGuardrail] mundaneModel financeRequest
      = (blockedResponse, 0) :=
  beforeModel_shortCircuit [onBeforeModel] [] onBeforeModelGuardrail mundaneModel
    financeRequest blockedResponse
    (by intro c hc; rw [List.mem_singleton] at hc; rw [hc]; rfl)
    (by decide)

end Callbacks

namespace Transfer

/-- C4: when a tool observes an urgent query during the main agent's turn,
it sets `transferToAgent = "support_agent"` on its event's actions, and
the dispatch loop re-dispatches the next turn to the support agent — the
agent named by the tool, not the main agent again — carrying the same
session forward and handing the next turn's input to it. -/
theorem transfer_routes_to_named_agent {S : Type} (sess : S) (query : String)
    (hurgent : goStringContains (goToLower query) "urgent" = true) :
    (checkAndTransfer query).2.transferToAgent = "support_agent"
    ∧ dispatchAfterTurn sess (mainAgentTurn query)
        = some (DispatchTarget.supportAgent, sess,
            "The user has an urgent issue, please assist them.") := by
  constructor
  · simp [checkAndTransfer, hurgent]
  · simp [dispatchAfterTurn, mainAgentTurn, lastTransfer, checkAndTransfer, hurgent]

/-- Concrete instance of C4: the urgent query of the example transfers the
turn to the support agent, with the session carried forward. -/
theorem transfer_routes_to_named_agent_witness :
    (checkAndTransfer "this is urgent, i cant login").2.transferToAgent = "support_agent"
    ∧ dispatchAfterTurn "1234" (mainAgentTurn "this is urgent, i cant login")
        = some (DispatchTarget.supportAgent, "1234",
            "The user has an urgent issue, please assist them.") :=
  transfer_routes_to_named_agent "1234" "this is urgent, i cant login" (by decide)

end Transfer

namespace LongRunning

/-- Each protocol step advances the execution and terminal counters by
exactly the rank difference of the states it connects. -/
theorem stepFlow_rank {V : Type} (s : FlowState V) (inp : FlowInput V) :
    (stepFlow s inp).2.1 + rankExec s = rankExec (stepFlow s inp).1
    ∧ (stepFlow s inp).2.2 + rankDone s = rankDone (stepFlow s inp).1 := by
  cases s with
  | idle => cases inp <;> simp [stepFlow, rankExec, rankDone]
  | pending callID =>
    cases inp with
    | startCall id2 => simp [stepFlow, rankExec, rankDone]
    | functionResponse respID wc v =>
      by_cases h : respID = callID
      · cases wc <;> simp [stepFlow, h, rankExec, rankDone]
      · simp [stepFlow, h, rankExec, rankDone]
  | completed callID fv => cases inp <;> simp [stepFlow, rankExec, rankDone]

/-- Over any input sequence, the accumulated counts equal the rank
difference between the final and initial states: in particular a flow
driven from idle to completed performs exactly one tool execution and
exactly one terminal resumption. -/
theorem runFlow_counts {V : Type} (inputs : List (FlowInput V)) (s : FlowState V) :
    (runFlow inputs s).2.1 + rankExec s = rankExec (runFlow inputs s).1
    ∧ (runFlow inputs s).2.2 + rankDone s = rankDone (runFlow inputs s).1 := by
  induction inputs generalizing s with
  | nil => simp [runFlow]
  | cons inp rest ih =>
    obtain ⟨h1, h2⟩ := stepFlow_rank s inp
    obtain ⟨h3, h4⟩ := ih (stepFlow s inp).1
    constructor <;> simp only [runFlow] <;> omega

/-- C7: the three-turn long-running flow: the initiating turn executes the
tool exactly once and leaves only a pending placeholder carrying the
captured call ID; a `willContinue = true` function response keeps the call
open without re-executing the tool; the first `willContinue = false`
response completes the flow with its final value — and over any input
sequence the counters advance exactly with the protocol state, so one
start and one terminal resumption complete any flow. -/
theorem longRunning_protocol {V : Type} (callID : String) (v1 v2 : V) :
    runFlow [FlowInput.startCall callID] (FlowState.idle : FlowState V)
        = (FlowState.pending callID, 1, 0)
    ∧ runFlow [FlowInput.startCall callID,
        FlowInput.functionResponse callID true v1] (FlowState.idle : FlowState V)
        = (FlowState.pending callID, 1, 0)
    ∧ runFlow [FlowInput.startCall callID,
        FlowInput.functionResponse callID true v1,
        FlowInput.functionResponse callID false v2] (FlowState.idle : FlowState V)
        = (FlowState.completed callID v2, 1, 1)
    ∧ ∀ (inputs : List (FlowInput V)) (s : FlowState V),
        (runFlow inputs s).2.1 + rankExec s = rankExec (runFlow inputs s).1
        ∧ (runFlow inputs s).2.2 + rankDone s = rankDone (runFlow inputs s).1 := by
  refine ⟨?_, ?_, ?_, fun inputs s => runFlow_counts inputs s⟩ <;>
    simp [runFlow, stepFlow]

end LongRunning

namespace Templating

/-- Brace-free characters are copied through unchanged outside
placeholders. -/
theorem renderChars_copy (st : StateMap String) (w rest : List Char)
    (hw : ∀ c ∈ w, c ≠ '\x7b' ∧ c ≠ '\x7d') :
    renderChars st (w ++ rest) RenderMode.normal = w ++ renderChars st rest RenderMode.normal := by
  induction w with
  | nil => rfl
  | cons c w ih =>
    obtain ⟨h1, h2⟩ := hw c (by simp)
    rw [List.cons_append]
    show renderChars st (c :: (w ++ rest)) RenderMode.normal = _
    simp only [renderChars, if_neg h1, if_neg h2, List.cons_append]
    rw [ih (fun c' hc' => hw c' (List.mem_cons_of_mem _ hc'))]

/-- An opening brace enters placeholder mode. -/
theorem renderChars_openBrace (st : StateMap String) (rest : List Char) :
    renderChars st ('\x7b' :: rest) RenderMode.normal
      = renderChars st rest (RenderMode.keyAcc []) := by
  simp [renderChars]

/-- A doubled opening brace is the escape: it emits a literal brace and
returns to normal mode with no lookup. -/
theorem renderChars_escOpen (st : StateMap String) (rest : List Char) :
    renderChars st ('\x7b' :: rest) (RenderMode.keyAcc [])
      = '\x7b' :: renderChars st rest RenderMode.normal := by
  simp [renderChars]

/-- Scanning a brace-free key up to its closing brace performs the state
lookup of the accumulated key. -/
theorem renderChars_key (st : StateMap String) (ks acc rest : List Char)
    (hk : ∀ c ∈ ks, c ≠ '\x7b' ∧ c ≠ '\x7d') :
    renderChars st (ks ++ '\x7d' :: rest) (RenderMode.keyAcc acc)
      = (match st (String.mk (acc.reverse ++ ks)) with
         | some v => v.toList
         | none => '\x7b' :: (acc.reverse ++ ks) ++ ['\x7d'])
        ++ renderChars st rest RenderMode.normal := by
  induction ks generalizing acc with
  | nil =>
    show renderChars st ('\x7d' :: rest) (RenderMode.keyAcc acc) = _
    simp [renderChars]
  | cons c ks ih =>
    obtain ⟨h1, h2⟩ := hk c (by simp)
    show renderChars st (c :: (ks ++ '\x7d' :: rest)) (RenderMode.keyAcc acc) = _
    simp only [renderChars, h1, h2, Bool.false_and, if_neg, if_false]
    rw [ih (c :: acc) (fun c' hc' => hk c' (List.mem_cons_of_mem _ hc'))]
    rw [show (c :: acc).reverse ++ ks = acc.reverse ++ (c :: ks) by
      simp [List.reverse_cons, List.append_assoc]]
    simp

/-- C8: instruction templating substitutes each `\x7bkey\x7d` placeholder
with the state value of `key` — "Hi \x7bname\x7d" with state binding
`name` to `Ada` renders as "Hi Ada" — while a double-braced literal is
escaped: "\x7b\x7bliteral\x7d\x7d" renders as "\x7bliteral\x7d", with no
state lookup possible since the braces are consumed as escapes. -/
theorem instruction_templating (st : StateMap String) (k v w : String)
    (hk : ∀ c ∈ k.toList, c ≠ '\x7b' ∧ c ≠ '\x7d') (hkv : st k = some v)
    (hw : ∀ c ∈ w.toList, c ≠ '\x7b' ∧ c ≠ '\x7d') :
    injectSessionState st ("Hi \x7b" ++ k ++ "\x7d") = "Hi " ++ v
    ∧ injectSessionState st ("\x7b\x7b" ++ w ++ "\x7d\x7d") = "\x7b" ++ w ++ "\x7d" := by
  constructor
  · unfold injectSessionState
    have htl : ("Hi \x7b" ++ k ++ "\x7d").toList
        = ['H', 'i', ' '] ++ ('\x7b' :: (k.toList ++ '\x7d' :: [])) := by
      simp [String.toList, String.data_append]
    rw [htl, renderChars_copy st ['H', 'i', ' '] _ (by decide), renderChars_openBrace,
      renderChars_key st k.toList [] [] hk]
    simp only [List.reverse_nil, List.nil_append]
    rw [show String.mk k.toList = k from rfl, hkv]
    show String.mk (['H', 'i', ' '] ++ (v.toList ++ [])) = "Hi " ++ v
    rw [List.append_nil]
    rfl
  · unfold injectSessionState
    have htl : ("\x7b\x7b" ++ w ++ "\x7d\x7d").toList
        = '\x7b' :: '\x7b' :: (w.toList ++ ['\x7d', '\x7d']) := by
      simp [String.toList, String.data_append]
    rw [htl, renderChars_openBrace, renderChars_escOpen,
      renderChars_copy st w.toList _ hw]
    show String.mk ('\x7b' :: (w.toList ++ ['\x7d'])) = "\x7b" ++ w ++ "\x7d"
    rfl

/-- Concrete instance of C8: "Hi \x7bname\x7d" with `name` bound to `Ada`
renders as "Hi Ada", and "\x7b\x7bliteral\x7d\x7d" renders literally as
"\x7bliteral\x7d". -/
theorem instruction_templating_witness :
    injectSessionState adaState ("Hi \x7b" ++ "name" ++ "\x7d") = "Hi " ++ "Ada"
    ∧ injectSessionState adaState ("\x7b\x7b" ++ "literal" ++ "\x7d\x7d")
        = "\x7b" ++ "literal" ++ "\x7d" :=
  instruction_templating adaState "name" "Ada" "literal" (by decide) (by decide) (by decide)

end Templating

namespace FinalResponse

/-- C10: an event is classified as the agent's final response by
`isFinalResponse` if and only if its actions set skip-summarization, or its
long-running-tool-ID set is non-empty, or its LLM response is absent, or
its LLM response contains no function-call part, no function-response
part, is not partial, and its last part is not a code-execution result. -/
theorem isFinalResponse_iff_claim (ev : Event) :
    isFinalResponse ev = true ↔ finalResponseClaim ev := by
  rcases ev with ⟨a, ⟨ss⟩, ids, resp⟩
  unfold isFinalResponse finalResponseClaim
  cases ss with
  | true => simp
  | false =>
    cases ids with
    | cons x xs => simp
    | nil =>
      cases resp with
      | none => simp
      | some r =>
        rcases r with ⟨content, pf⟩
        cases content with
        | none =>
          cases pf <;>
            simp [hasFunctionCalls, hasFunctionResponses, hasTrailingCodeExecutionResult]
        | some c =>
          cases pf with
          | true =>
            simp [hasFunctionCalls, hasFunctionResponses, hasTrailingCodeExecutionResult]
          | false =>
            cases hlast : c.parts.getLast? with
            | none =>
              simp [hasFunctionCalls, hasFunctionResponses,
                hasTrailingCodeExecutionResult, hlast, List.any_eq_true,
                Option.isSome_iff_exists, Option.eq_none_iff_forall_not_mem]
            | some lastPart =>
              simp [hasFunctionCalls, hasFunctionResponses,
                hasTrailingCodeExecutionResult, hlast, List.any_eq_true,
                Option.isSome_iff_exists, Option.eq_none_iff_forall_not_mem]
              tauto

end FinalResponse

end AdkSpec
